import Mathlib

set_option autoImplicit false

/-! Shallow embedding of the `FASTQProcessor` class of `analiz_FASTQC.py`.

Python strings are modelled as `List Char`, Python integers as `Nat`/`Int`,
exact rationals (`ℚ`) stand for the float results of the two divisions, and the
`defaultdict(int)` holding the base tally is an insertion-ordered association
list.  File I/O is modelled by passing the file's decoded text content to
`parse_fastq` alongside the path. -/

/-- Whitespace characters removed by Python `str.strip()` (the ASCII ones;
the input files are ASCII FASTQ text). -/
def pyIsSpace (c : Char) : Bool :=
  c = ' ' || c = '\t' || c = '\n' || c = '\r' || c = '\x0b' || c = '\x0c'

/-- Python `str.strip()`: drop leading and trailing whitespace. -/
def pyStrip (s : List Char) : List Char :=
  ((s.dropWhile pyIsSpace).reverse.dropWhile pyIsSpace).reverse

/-- Python `str.endswith(sfx)` on character lists (used for the `.gz` test,
line 42 of the source). -/
def pyEndswith (s sfx : List Char) : Bool :=
  sfx.isSuffixOf s

/-- Helper for `readlines`: `cur` is the reversed current line. -/
def readlinesAux (cur : List Char) : List Char → List (List Char)
  | [] => if cur.isEmpty then [] else [cur.reverse]
  | c :: rest =>
    if c = '\n' then (cur.reverse ++ ['\n']) :: readlinesAux [] rest
    else readlinesAux (c :: cur) rest

/-- Python `file.readlines()` on decoded text (line 52): split into lines, each
keeping its trailing newline; a final unterminated line is kept as is, and an
empty file yields no lines.  (Text mode has already translated `\r\n` to `\n`.) -/
def readlines (content : List Char) : List (List Char) :=
  readlinesAux [] content

/-- The mutable attributes of `FASTQProcessor` (`__init__`, lines 19-25).  The
`defaultdict(int)` `base_counts` is an insertion-ordered association list;
absent keys read as 0. -/
structure FASTQProcessor where
  sequences_count : Nat
  total_length : Nat
  sequence_lengths : List Nat
  quality_scores : List Int
  base_counts : List (Char × Nat)
  deriving Repr, DecidableEq

/-- The freshly constructed state (`__init__`): all counters zero, all stores
empty. -/
def initState : FASTQProcessor :=
  { sequences_count := 0, total_length := 0, sequence_lengths := [],
    quality_scores := [], base_counts := [] }

/-- The reset block at the start of `parse_fastq` (lines 35-39): every field is
reassigned to zero/empty. -/
def resetState (st : FASTQProcessor) : FASTQProcessor :=
  { st with
    sequences_count := 0
    total_length := 0
    sequence_lengths := []
    quality_scores := []
    base_counts := [] }

/-- Value stored in the `defaultdict(int)` for key `k`, an absent key reading
as the default 0 (the pure value; the insertion side effect of a Python
`__getitem__` read is `ddGetItem`). -/
def ddVal (d : List (Char × Nat)) (k : Char) : Nat :=
  match d with
  | [] => 0
  | (k', v) :: rest => if k' = k then v else ddVal rest k

/-- Python `defaultdict(int).__getitem__`: return the value for `k` together
with the updated dict — a missing key is inserted with the default value 0
(this is `defaultdict.__missing__`; it fires in `get_base_composition`,
line 156). -/
def ddGetItem (d : List (Char × Nat)) (k : Char) : Nat × List (Char × Nat) :=
  match d with
  | [] => (0, [(k, 0)])
  | (k', v) :: rest =>
    if k' = k then (v, (k', v) :: rest)
    else
      let r := ddGetItem rest k
      (r.1, (k', v) :: r.2)

/-- Python `d[k] += 1` on a `defaultdict(int)` (line 95): bump the stored
count, inserting the key with count 1 when absent. -/
def ddIncr (d : List (Char × Nat)) (k : Char) : List (Char × Nat) :=
  match d with
  | [] => [(k, 1)]
  | (k', v) :: rest =>
    if k' = k then (k', v + 1) :: rest else (k', v) :: ddIncr rest k

/-- Membership test `base in 'ATGC'` (line 94). -/
def inATGC (b : Char) : Bool :=
  b = 'A' || b = 'T' || b = 'G' || b = 'C'

/-- Method `FASTQProcessor._count_bases` (lines 82-95): uppercase the sequence,
then bump `base_counts` for every canonical base A/T/G/C; every other
character is skipped. -/
def count_bases (d : List (Char × Nat)) (sequence : List Char) : List (Char × Nat) :=
  (sequence.map Char.toUpper).foldl
    (fun acc b => if inATGC b then ddIncr acc b else acc) d

/-- Phred+33 decode of one quality character: `ord(char) - 33` (line 106). -/
def phred (c : Char) : Int :=
  (c.toNat : Int) - 33

/-- Method `FASTQProcessor._analyze_quality` (lines 97-108): decode every
character of the quality line and extend `quality_scores`; no clamping. -/
def analyze_quality (qs : List Int) (quality_string : List Char) : List Int :=
  qs ++ quality_string.map phred

/-- Body of the block loop of `parse_fastq` (lines 62-80) for one complete
4-line block: the stripped sequence and quality lines update every counter. -/
def ingest (st : FASTQProcessor) (sequence_line quality_line : List Char) :
    FASTQProcessor :=
  let seq_len := sequence_line.length
  { st with
    sequences_count := st.sequences_count + 1
    total_length := st.total_length + seq_len
    sequence_lengths := st.sequence_lengths ++ [seq_len]
    base_counts := count_bases st.base_counts sequence_line
    quality_scores := analyze_quality st.quality_scores quality_line }

/-- The block loop of `parse_fastq` (lines 55-80): `for i in range(0,
len(lines), 4)` guarded by `i + 3 < len(lines)` — consecutive groups of
exactly four lines are consumed (identifier and separator lines ignored), and
a trailing partial group is dropped. -/
def parse_blocks (st : FASTQProcessor) (lines : List (List Char)) : FASTQProcessor :=
  match lines with
  | _ :: l1 :: _ :: l3 :: rest =>
    parse_blocks (ingest st (pyStrip l1) (pyStrip l3)) rest
  | _ => st

/-- Method `FASTQProcessor.parse_fastq` (lines 27-80).  File I/O is modelled
by passing the file's decoded text: when `path` ends in `.gz` the source opens
the file with `gzip.open` in text mode and `decoded` is the decompressed
decoded content, otherwise it opens with `open` and `decoded` is the plain
decoded content (both read with UTF-8 `errors='ignore'` decoding and
universal-newline translation).  The method first resets all statistics, then
reads the lines and folds every complete 4-line block into the state. -/
def parse_fastq (st : FASTQProcessor) (path decoded : List Char) : FASTQProcessor :=
  if pyEndswith path ['.', 'g', 'z'] then
    parse_blocks (resetState st) (readlines decoded)
  else
    parse_blocks (resetState st) (readlines decoded)

/-- A summary view either reports the "no data" message or structured data. -/
inductive View (α : Type) where
  | noData : View α
  | data : α → View α
  deriving Repr, DecidableEq

/-- Python `min` over a list; `none` models the `ValueError` raised on an
empty list. -/
def pyMin {α : Type} [Min α] : List α → Option α
  | [] => none
  | x :: xs => some (xs.foldl Min.min x)

/-- Python `max` over a list; `none` models the `ValueError` raised on an
empty list. -/
def pyMax {α : Type} [Max α] : List α → Option α
  | [] => none
  | x :: xs => some (xs.foldl Max.max x)

/-- The numbers printed by `get_basic_stats` (lines 120-124); the mean is kept
exact where Python uses a float. -/
structure BasicStats where
  count : Nat
  avg_length : ℚ
  min_length : Nat
  max_length : Nat
  total_length : Nat
  deriving Repr, DecidableEq

/-- Method `FASTQProcessor.get_basic_stats` (lines 110-126): the "no data"
message when no sequences were counted, otherwise the five reported numbers;
`none` models a raised `ValueError` from `min`/`max` on an empty list. -/
def get_basic_stats (st : FASTQProcessor) : Option (View BasicStats) :=
  if st.sequences_count = 0 then some View.noData
  else
    match pyMin st.sequence_lengths, pyMax st.sequence_lengths with
    | some mn, some mx =>
      some (View.data
        { count := st.sequences_count
          avg_length := (st.total_length : ℚ) / (st.sequences_count : ℚ)
          min_length := mn
          max_length := mx
          total_length := st.total_length })
    | _, _ => none

/-- The numbers printed by `get_quality_stats` (lines 138-141). -/
structure QualityStats where
  avg_quality : ℚ
  min_quality : Int
  max_quality : Int
  score_count : Nat
  deriving Repr, DecidableEq

/-- Method `FASTQProcessor.get_quality_stats` (lines 128-143). -/
def get_quality_stats (st : FASTQProcessor) : Option (View QualityStats) :=
  if st.quality_scores = [] then some View.noData
  else
    match pyMin st.quality_scores, pyMax st.quality_scores with
    | some mn, some mx =>
      some (View.data
        { avg_quality := (st.quality_scores.sum : ℚ) / (st.quality_scores.length : ℚ)
          min_quality := mn
          max_quality := mx
          score_count := st.quality_scores.length })
    | _, _ => none

/-- Sum of the stored tally values: `sum(self.base_counts.values())`
(line 151). -/
def tallySum (d : List (Char × Nat)) : Nat :=
  (d.map Prod.snd).sum

/-- The percentage expression of line 157: `(count / total_bases) * 100 if
total_bases > 0 else 0`. -/
def pctOf (total cnt : Nat) : ℚ :=
  if 0 < total then (cnt : ℚ) / (total : ℚ) * 100 else 0

/-- One line of the base-composition report (line 158): base symbol, count,
percentage. -/
structure BaseEntry where
  base : Char
  count : Nat
  percentage : ℚ
  deriving Repr, DecidableEq

/-- One report line built from the current total and a looked-up count. -/
def compEntry (total cnt : Nat) (b : Char) : BaseEntry :=
  { base := b, count := cnt, percentage := pctOf total cnt }

/-- The `for base in 'ATGC'` loop of `get_base_composition` (lines 155-158),
threading the dict because `count = self.base_counts[base]` on the
`defaultdict` inserts a missing key with value 0. -/
def compLoop (total : Nat) (acc : List BaseEntry × List (Char × Nat)) :
    List Char → List BaseEntry × List (Char × Nat)
  | [] => acc
  | b :: bs =>
    let r := ddGetItem acc.2 b
    compLoop total (acc.1 ++ [compEntry total r.1 b], r.2) bs

/-- Method `FASTQProcessor.get_base_composition` (lines 145-160).  Returns the
report together with the post-call state: reading `self.base_counts[base]` on
the `defaultdict` inserts missing keys, so the dict may gain zero-count
entries for canonical bases.  `total_bases` is the sum of the stored values,
computed before the loop. -/
def get_base_composition (st : FASTQProcessor) :
    View (List BaseEntry) × FASTQProcessor :=
  if st.base_counts = [] then (View.noData, st)
  else
    let total_bases := tallySum st.base_counts
    let r := compLoop total_bases ([], st.base_counts) ['A', 'T', 'G', 'C']
    (View.data r.1, { st with base_counts := r.2 })

/-- Keys of the tally dict are canonical bases (a reachability invariant of
the parser: only uppercase A/T/G/C are ever inserted). -/
def goodKeys (d : List (Char × Nat)) : Prop :=
  ∀ p ∈ d, inATGC p.1 = true

/-- Keys of the tally dict are pairwise distinct (a dict invariant). -/
def nodupKeys (d : List (Char × Nat)) : Prop :=
  (d.map Prod.fst).Nodup

instance (d : List (Char × Nat)) : Decidable (goodKeys d) := by
  unfold goodKeys; infer_instance

instance (d : List (Char × Nat)) : Decidable (nodupKeys d) := by
  unfold nodupKeys; infer_instance

/-! Projection lemmas for `ingest`. -/

@[simp]
theorem ingest_sequences_count (st : FASTQProcessor) (s q : List Char) :
    (ingest st s q).sequences_count = st.sequences_count + 1 := rfl

@[simp]
theorem ingest_total_length (st : FASTQProcessor) (s q : List Char) :
    (ingest st s q).total_length = st.total_length + s.length := rfl

@[simp]
theorem ingest_sequence_lengths (st : FASTQProcessor) (s q : List Char) :
    (ingest st s q).sequence_lengths = st.sequence_lengths ++ [s.length] := rfl

@[simp]
theorem ingest_quality_scores (st : FASTQProcessor) (s q : List Char) :
    (ingest st s q).quality_scores = analyze_quality st.quality_scores q := rfl

@[simp]
theorem ingest_base_counts (st : FASTQProcessor) (s q : List Char) :
    (ingest st s q).base_counts = count_bases st.base_counts s := rfl

/-! Structural lemmas for the 4-line block loop. -/

/-- Induction principle matching the 4-line framing of `parse_blocks`. -/
theorem list4_induction {α : Type} {motive : List α → Prop}
    (base : ∀ l : List α, l.length < 4 → motive l)
    (step : ∀ (a b c d : α) (rest : List α), motive rest →
      motive (a :: b :: c :: d :: rest)) :
    ∀ l : List α, motive l
  | [] => base [] (by simp)
  | [a] => base [a] (by simp)
  | [a, b] => base [a, b] (by simp)
  | [a, b, c] => base [a, b, c] (by simp)
  | a :: b :: c :: d :: rest => step a b c d rest (list4_induction base step rest)

theorem parse_blocks_short (l : List (List Char)) (h : l.length < 4)
    (st : FASTQProcessor) : parse_blocks st l = st := by
  rcases l with _ | ⟨a, _ | ⟨b, _ | ⟨c, _ | ⟨d, rest⟩⟩⟩⟩
  · rfl
  · rfl
  · rfl
  · rfl
  · exfalso
    simp only [List.length_cons] at h
    omega

theorem parse_blocks_cons (st : FASTQProcessor) (l0 l1 l2 l3 : List Char)
    (rest : List (List Char)) :
    parse_blocks st (l0 :: l1 :: l2 :: l3 :: rest) =
      parse_blocks (ingest st (pyStrip l1) (pyStrip l3)) rest := rfl

theorem parse_fastq_eq (st : FASTQProcessor) (path decoded : List Char) :
    parse_fastq st path decoded = parse_blocks initState (readlines decoded) := by
  unfold parse_fastq
  split <;> rfl

theorem parse_blocks_sequences_count (lines : List (List Char)) :
    ∀ st : FASTQProcessor,
      (parse_blocks st lines).sequences_count =
        st.sequences_count + lines.length / 4 := by
  induction lines using list4_induction with
  | base l hl =>
    intro st
    rw [parse_blocks_short l hl, Nat.div_eq_of_lt hl]
    omega
  | step a b c d rest ih =>
    intro st
    rw [parse_blocks_cons, ih]
    simp only [ingest_sequences_count, List.length_cons]
    omega

theorem parse_blocks_trailing (blocks : List (List Char)) :
    ∀ (trail : List (List Char)) (st : FASTQProcessor),
      blocks.length % 4 = 0 → trail.length < 4 →
      parse_blocks st (blocks ++ trail) = parse_blocks st blocks := by
  induction blocks using list4_induction with
  | base l hl =>
    intro trail st h4 htrail
    have hl0 : l = [] := List.length_eq_zero.mp (by omega)
    subst hl0
    simp only [List.nil_append]
    rw [parse_blocks_short trail htrail, parse_blocks_short [] (by simp)]
  | step a b c d rest ih =>
    intro trail st h4 htrail
    rw [List.cons_append, List.cons_append, List.cons_append, List.cons_append,
      parse_blocks_cons, parse_blocks_cons]
    exact ih trail _ (by simp only [List.length_cons] at h4; omega) htrail

theorem parse_blocks_total_eq_sum (lines : List (List Char)) :
    ∀ st : FASTQProcessor, st.total_length = st.sequence_lengths.sum →
      (parse_blocks st lines).total_length =
        (parse_blocks st lines).sequence_lengths.sum := by
  induction lines using list4_induction with
  | base l hl =>
    intro st h
    rw [parse_blocks_short l hl]
    exact h
  | step a b c d rest ih =>
    intro st h
    rw [parse_blocks_cons]
    exact ih _ (by simp [List.sum_append, h])

theorem parse_blocks_count_eq_len (lines : List (List Char)) :
    ∀ st : FASTQProcessor, st.sequences_count = st.sequence_lengths.length →
      (parse_blocks st lines).sequences_count =
        (parse_blocks st lines).sequence_lengths.length := by
  induction lines using list4_induction with
  | base l hl =>
    intro st h
    rw [parse_blocks_short l hl]
    exact h
  | step a b c d rest ih =>
    intro st h
    rw [parse_blocks_cons]
    exact ih _ (by simp [h])

/-! Lemmas about the `defaultdict` operations. -/

theorem ddVal_ddIncr (d : List (Char × Nat)) (k c : Char) :
    ddVal (ddIncr d k) c = ddVal d c + (if k = c then 1 else 0) := by
  induction d with
  | nil =>
    simp only [ddIncr, ddVal]
    by_cases h : k = c
    · simp [h]
    · simp [h, Ne.symm h]
  | cons kv rest ih =>
    obtain ⟨k', v⟩ := kv
    simp only [ddIncr]
    by_cases hkk : k' = k
    · subst hkk
      simp only [if_pos rfl, ddVal]
      by_cases hc : k' = c
      · simp [hc]
      · simp [hc]
    · rw [if_neg hkk]
      simp only [ddVal]
      by_cases hc : k' = c
      · have hkc : ¬ k = c := fun h => hkk (h ▸ hc.symm ▸ rfl)
        simp [hc, hkc]
      · simp [hc, ih]

theorem ddVal_eq_zero_of_not_mem (d : List (Char × Nat)) (c : Char)
    (h : c ∉ d.map Prod.fst) : ddVal d c = 0 := by
  induction d with
  | nil => rfl
  | cons kv rest ih =>
    obtain ⟨k, v⟩ := kv
    simp only [List.map_cons, List.mem_cons] at h
    push_neg at h
    simp only [ddVal, if_neg (fun hkc : k = c => h.1 hkc.symm)]
    exact ih h.2

theorem ddIncr_goodKeys (k : Char) (hk : inATGC k = true) :
    ∀ d : List (Char × Nat), goodKeys d → goodKeys (ddIncr d k) := by
  intro d
  induction d with
  | nil =>
    intro _ p hp
    simp only [ddIncr, List.mem_singleton] at hp
    subst hp
    exact hk
  | cons kv rest ih =>
    intro hd p hp
    obtain ⟨k', v⟩ := kv
    simp only [ddIncr] at hp
    by_cases hkk : k' = k
    · rw [if_pos hkk] at hp
      rcases List.mem_cons.mp hp with h1 | h1
      · subst h1
        exact hd (k', v) (List.mem_cons_self _ _)
      · exact hd _ (List.mem_cons_of_mem _ h1)
    · rw [if_neg hkk] at hp
      rcases List.mem_cons.mp hp with h1 | h1
      · subst h1
        exact hd _ (List.mem_cons_self _ _)
      · exact ih (fun q hq => hd q (List.mem_cons_of_mem _ hq)) p h1

theorem ddIncr_keys_sub (k : Char) :
    ∀ (d : List (Char × Nat)) (c : Char),
      c ∈ (ddIncr d k).map Prod.fst → c ∈ d.map Prod.fst ∨ c = k := by
  intro d
  induction d with
  | nil =>
    intro c hc
    simp only [ddIncr, List.map_cons, List.map_nil, List.mem_singleton] at hc
    right
    exact hc
  | cons kv rest ih =>
    obtain ⟨k', v⟩ := kv
    intro c hc
    simp only [ddIncr] at hc
    by_cases hkk : k' = k
    · rw [if_pos hkk] at hc
      simp only [List.map_cons, List.mem_cons] at hc
      rcases hc with h | h
      · left
        simp [h]
      · left
        simp only [List.map_cons, List.mem_cons]
        right
        exact h
    · rw [if_neg hkk] at hc
      simp only [List.map_cons, List.mem_cons] at hc
      rcases hc with h | h
      · left
        simp [h]
      · rcases ih c h with h2 | h2
        · left
          simp only [List.map_cons, List.mem_cons]
          right
          exact h2
        · right
          exact h2

theorem ddIncr_nodupKeys (k : Char) :
    ∀ d : List (Char × Nat), nodupKeys d → nodupKeys (ddIncr d k) := by
  intro d
  induction d with
  | nil =>
    intro _
    simp [ddIncr, nodupKeys]
  | cons kv rest ih =>
    obtain ⟨k', v⟩ := kv
    intro hd
    unfold nodupKeys at hd ⊢
    simp only [List.map_cons, List.nodup_cons] at hd
    obtain ⟨hk', hrest⟩ := hd
    simp only [ddIncr]
    by_cases hkk : k' = k
    · rw [if_pos hkk]
      simp only [List.map_cons, List.nodup_cons]
      exact ⟨hk', hrest⟩
    · rw [if_neg hkk]
      simp only [List.map_cons, List.nodup_cons]
      refine ⟨?_, ih hrest⟩
      intro hc
      rcases ddIncr_keys_sub k rest k' hc with h | h
      · exact hk' h
      · exact hkk h

theorem foldl_tally_ddVal :
    ∀ (l : List Char) (d : List (Char × Nat)) (c : Char),
      ddVal (l.foldl (fun acc b => if inATGC b then ddIncr acc b else acc) d) c =
        ddVal d c + (if inATGC c = true then l.count c else 0) := by
  intro l
  induction l with
  | nil =>
    intro d c
    simp
  | cons b l ih =>
    intro d c
    simp only [List.foldl_cons]
    by_cases hb : inATGC b = true
    · rw [if_pos hb, ih, ddVal_ddIncr]
      by_cases hbc : b = c
      · subst hbc
        rw [if_pos rfl, if_pos hb, if_pos hb, List.count_cons_self]
        omega
      · rw [if_neg hbc, List.count_cons_of_ne (Ne.symm hbc)]
        omega
    · rw [if_neg hb, ih]
      by_cases hc : inATGC c = true
      · have hbc : b ≠ c := fun h => hb (h ▸ hc)
        rw [if_pos hc, if_pos hc, List.count_cons_of_ne (Ne.symm hbc)]
      · rw [if_neg hc, if_neg hc]

theorem count_bases_ddVal (d : List (Char × Nat)) (s : List Char) (c : Char) :
    ddVal (count_bases d s) c =
      ddVal d c + (if inATGC c = true then (s.map Char.toUpper).count c else 0) :=
  foldl_tally_ddVal (s.map Char.toUpper) d c

theorem count_bases_goodKeys (s : List Char) :
    ∀ d : List (Char × Nat), goodKeys d → goodKeys (count_bases d s) := by
  unfold count_bases
  generalize s.map Char.toUpper = l
  induction l with
  | nil =>
    intro d hd
    exact hd
  | cons b l ih =>
    intro d hd
    simp only [List.foldl_cons]
    by_cases hb : inATGC b = true
    · rw [if_pos hb]
      exact ih _ (ddIncr_goodKeys b hb d hd)
    · rw [if_neg hb]
      exact ih _ hd

theorem count_bases_nodupKeys (s : List Char) :
    ∀ d : List (Char × Nat), nodupKeys d → nodupKeys (count_bases d s) := by
  unfold count_bases
  generalize s.map Char.toUpper = l
  induction l with
  | nil =>
    intro d hd
    exact hd
  | cons b l ih =>
    intro d hd
    simp only [List.foldl_cons]
    by_cases hb : inATGC b = true
    · rw [if_pos hb]
      exact ih _ (ddIncr_nodupKeys b d hd)
    · rw [if_neg hb]
      exact ih _ hd

theorem ddGetItem_fst (d : List (Char × Nat)) (k : Char) :
    (ddGetItem d k).1 = ddVal d k := by
  induction d with
  | nil => rfl
  | cons kv rest ih =>
    obtain ⟨k', v⟩ := kv
    simp only [ddGetItem, ddVal]
    by_cases hkk : k' = k
    · simp [hkk]
    · simp [hkk, ih]

theorem ddGetItem_snd_ddVal (d : List (Char × Nat)) (k c : Char) :
    ddVal (ddGetItem d k).2 c = ddVal d c := by
  induction d with
  | nil =>
    simp only [ddGetItem, ddVal]
    by_cases h : k = c
    · simp [h]
    · simp [h]
  | cons kv rest ih =>
    obtain ⟨k', v⟩ := kv
    simp only [ddGetItem]
    by_cases hkk : k' = k
    · simp [hkk]
    · simp only [if_neg hkk, ddVal]
      by_cases hc : k' = c
      · simp [hc]
      · simp [hc, ih]

theorem ddGetItem_snd_sum (d : List (Char × Nat)) (k : Char) :
    tallySum (ddGetItem d k).2 = tallySum d := by
  induction d with
  | nil => rfl
  | cons kv rest ih =>
    obtain ⟨k', v⟩ := kv
    simp only [ddGetItem]
    by_cases hkk : k' = k
    · simp [hkk]
    · simp only [if_neg hkk, tallySum, List.map_cons, List.sum_cons] at ih ⊢
      omega

theorem ddGetItem_snd_ne_nil (d : List (Char × Nat)) (k : Char) :
    (ddGetItem d k).2 ≠ [] := by
  induction d with
  | nil => simp [ddGetItem]
  | cons kv rest ih =>
    obtain ⟨k', v⟩ := kv
    simp only [ddGetItem]
    by_cases hkk : k' = k
    · simp [hkk]
    · simp [hkk]

theorem compLoop_fst :
    ∀ (bs : List Char) (total : Nat) (es : List BaseEntry) (d : List (Char × Nat)),
      (compLoop total (es, d) bs).1 =
        es ++ bs.map (fun b => compEntry total (ddVal d b) b) := by
  intro bs
  induction bs with
  | nil =>
    intro total es d
    simp [compLoop]
  | cons b bs ih =>
    intro total es d
    simp only [compLoop, List.map_cons]
    rw [ih, ddGetItem_fst]
    have hmap : (fun x => compEntry total (ddVal (ddGetItem d b).2 x) x) =
        fun x => compEntry total (ddVal d x) x :=
      funext fun x => by rw [ddGetItem_snd_ddVal]
    rw [hmap, List.append_assoc]
    rfl

theorem compLoop_snd_ddVal :
    ∀ (bs : List Char) (total : Nat) (acc : List BaseEntry × List (Char × Nat))
      (c : Char), ddVal (compLoop total acc bs).2 c = ddVal acc.2 c := by
  intro bs
  induction bs with
  | nil =>
    intro total acc c
    rfl
  | cons b bs ih =>
    intro total acc c
    simp only [compLoop]
    rw [ih]
    exact ddGetItem_snd_ddVal acc.2 b c

theorem compLoop_snd_sum :
    ∀ (bs : List Char) (total : Nat) (acc : List BaseEntry × List (Char × Nat)),
      tallySum (compLoop total acc bs).2 = tallySum acc.2 := by
  intro bs
  induction bs with
  | nil =>
    intro total acc
    rfl
  | cons b bs ih =>
    intro total acc
    simp only [compLoop]
    rw [ih]
    exact ddGetItem_snd_sum acc.2 b

theorem compLoop_snd_ne_nil :
    ∀ (bs : List Char) (total : Nat) (acc : List BaseEntry × List (Char × Nat)),
      acc.2 ≠ [] → (compLoop total acc bs).2 ≠ [] := by
  intro bs
  induction bs with
  | nil =>
    intro total acc h
    exact h
  | cons b bs ih =>
    intro total acc _
    simp only [compLoop]
    exact ih total _ (ddGetItem_snd_ne_nil acc.2 b)

theorem tallySum_eq_four :
    ∀ d : List (Char × Nat), goodKeys d → nodupKeys d →
      tallySum d = ddVal d 'A' + ddVal d 'T' + ddVal d 'G' + ddVal d 'C' := by
  intro d
  induction d with
  | nil =>
    intro _ _
    rfl
  | cons kv rest ih =>
    obtain ⟨k, v⟩ := kv
    intro hg hn
    have hk : inATGC k = true := hg (k, v) (List.mem_cons_self _ _)
    have hg' : goodKeys rest := fun q hq => hg q (List.mem_cons_of_mem _ hq)
    have hn2 := hn
    unfold nodupKeys at hn2
    simp only [List.map_cons, List.nodup_cons] at hn2
    obtain ⟨hkmem, hn'⟩ := hn2
    have hzero : ddVal rest k = 0 := ddVal_eq_zero_of_not_mem rest k hkmem
    have hsum : tallySum ((k, v) :: rest) = v + tallySum rest := by
      simp [tallySum]
    have hrest := ih hg' hn'
    simp only [inATGC, Bool.or_eq_true, decide_eq_true_eq] at hk
    rcases hk with ((h | h) | h) | h <;> subst h
    · rw [hsum, hrest]
      have eA : ddVal (('A', v) :: rest) 'A' = v := by simp [ddVal]
      have eT : ddVal (('A', v) :: rest) 'T' = ddVal rest 'T' := by simp [ddVal]
      have eG : ddVal (('A', v) :: rest) 'G' = ddVal rest 'G' := by simp [ddVal]
      have eC : ddVal (('A', v) :: rest) 'C' = ddVal rest 'C' := by simp [ddVal]
      rw [eA, eT, eG, eC]
      rw [show ddVal rest 'A' = 0 from hzero]
      omega
    · rw [hsum, hrest]
      have eA : ddVal (('T', v) :: rest) 'A' = ddVal rest 'A' := by simp [ddVal]
      have eT : ddVal (('T', v) :: rest) 'T' = v := by simp [ddVal]
      have eG : ddVal (('T', v) :: rest) 'G' = ddVal rest 'G' := by simp [ddVal]
      have eC : ddVal (('T', v) :: rest) 'C' = ddVal rest 'C' := by simp [ddVal]
      rw [eA, eT, eG, eC]
      rw [show ddVal rest 'T' = 0 from hzero]
      omega
    · rw [hsum, hrest]
      have eA : ddVal (('G', v) :: rest) 'A' = ddVal rest 'A' := by simp [ddVal]
      have eT : ddVal (('G', v) :: rest) 'T' = ddVal rest 'T' := by simp [ddVal]
      have eG : ddVal (('G', v) :: rest) 'G' = v := by simp [ddVal]
      have eC : ddVal (('G', v) :: rest) 'C' = ddVal rest 'C' := by simp [ddVal]
      rw [eA, eT, eG, eC]
      rw [show ddVal rest 'G' = 0 from hzero]
      omega
    · rw [hsum, hrest]
      have eA : ddVal (('C', v) :: rest) 'A' = ddVal rest 'A' := by simp [ddVal]
      have eT : ddVal (('C', v) :: rest) 'T' = ddVal rest 'T' := by simp [ddVal]
      have eG : ddVal (('C', v) :: rest) 'G' = ddVal rest 'G' := by simp [ddVal]
      have eC : ddVal (('C', v) :: rest) 'C' = v := by simp [ddVal]
      rw [eA, eT, eG, eC]
      rw [show ddVal rest 'C' = 0 from hzero]
      omega

theorem parse_blocks_goodKeys (lines : List (List Char)) :
    ∀ st : FASTQProcessor, goodKeys st.base_counts →
      goodKeys (parse_blocks st lines).base_counts := by
  induction lines using list4_induction with
  | base l hl =>
    intro st h
    rw [parse_blocks_short l hl]
    exact h
  | step a b c d rest ih =>
    intro st h
    rw [parse_blocks_cons]
    exact ih _ (count_bases_goodKeys (pyStrip b) st.base_counts h)

theorem parse_blocks_nodupKeys (lines : List (List Char)) :
    ∀ st : FASTQProcessor, nodupKeys st.base_counts →
      nodupKeys (parse_blocks st lines).base_counts := by
  induction lines using list4_induction with
  | base l hl =>
    intro st h
    rw [parse_blocks_short l hl]
    exact h
  | step a b c d rest ih =>
    intro st h
    rw [parse_blocks_cons]
    exact ih _ (count_bases_nodupKeys (pyStrip b) st.base_counts h)

/-! The claims. -/

/-- C1.  For every input file whose decoded content splits into N complete
4-line blocks followed by M trailing lines with M < 4, `parse_fastq` sets
`sequences_count` (the record count) to exactly N, and the trailing M lines
contribute nothing to any statistic: the whole resulting state is the one
obtained from the N complete blocks alone. -/
theorem claim_C1 (st : FASTQProcessor) (path content : List Char)
    (blocks trail : List (List Char)) (N : Nat)
    (hsplit : readlines content = blocks ++ trail)
    (hN : blocks.length = 4 * N) (hM : trail.length < 4) :
    (parse_fastq st path content).sequences_count = N ∧
    parse_fastq st path content = parse_blocks initState blocks := by
  rw [parse_fastq_eq, hsplit,
    parse_blocks_trailing blocks trail initState (by omega) hM]
  refine ⟨?_, rfl⟩
  rw [parse_blocks_sequences_count blocks initState]
  show 0 + blocks.length / 4 = N
  omega

/-- Witness for C1 at a concrete file: one complete 4-line record followed by
a single trailing line, which is dropped. -/
theorem claim_C1_witness :
    readlines ("@r\nACGT\n+\nIIII\nju").toList =
      ["@r\n".toList, "ACGT\n".toList, "+\n".toList, "IIII\n".toList] ++
        ["ju".toList] ∧
    (["@r\n".toList, "ACGT\n".toList, "+\n".toList, "IIII\n".toList] :
      List (List Char)).length = 4 * 1 ∧
    (["ju".toList] : List (List Char)).length < 4 ∧
    (parse_fastq initState ['f'] ("@r\nACGT\n+\nIIII\nju").toList).sequences_count = 1 ∧
    parse_fastq initState ['f'] ("@r\nACGT\n+\nIIII\nju").toList =
      parse_blocks initState
        ["@r\n".toList, "ACGT\n".toList, "+\n".toList, "IIII\n".toList] :=
  ⟨by decide, by decide, by decide,
    (claim_C1 initState ['f'] ("@r\nACGT\n+\nIIII\nju").toList
      ["@r\n".toList, "ACGT\n".toList, "+\n".toList, "IIII\n".toList]
      ["ju".toList] 1 (by decide) (by decide) (by decide)).1,
    (claim_C1 initState ['f'] ("@r\nACGT\n+\nIIII\nju").toList
      ["@r\n".toList, "ACGT\n".toList, "+\n".toList, "IIII\n".toList]
      ["ju".toList] 1 (by decide) (by decide) (by decide)).2⟩

/-- C2.  For every ingested record, each character of the uppercased sequence
line that is one of A, T, G, C increments that symbol's counter in the base
tally (the counter grows by exactly the number of its occurrences), every
other character leaves the tally unchanged (the tally at a non-ATGC symbol
never moves), and every character — canonical or not — is still counted in
the record's length and in `total_length`. -/
theorem claim_C2 (st : FASTQProcessor) (s q : List Char) :
    (ingest st s q).sequences_count = st.sequences_count + 1 ∧
    (ingest st s q).total_length = st.total_length + s.length ∧
    (ingest st s q).sequence_lengths = st.sequence_lengths ++ [s.length] ∧
    (∀ c : Char,
      ddVal (ingest st s q).base_counts c =
        ddVal st.base_counts c +
          (if inATGC c = true then (s.map Char.toUpper).count c else 0)) := by
  refine ⟨rfl, rfl, rfl, ?_⟩
  intro c
  rw [ingest_base_counts]
  exact count_bases_ddVal st.base_counts s c

/-- C3.  For every ingested record and every character of its quality line,
the appended score is the character's code point minus 33: the quality line
contributes exactly its per-character Phred+33 decodes, in order, with no
clamping — `'!'` gives 0, `'I'` gives 40, and a sub-`'!'` character such as a
space gives the negative score −1. -/
theorem claim_C3 (st : FASTQProcessor) (s q : List Char) :
    (ingest st s q).quality_scores = st.quality_scores ++ q.map phred ∧
    (∀ c : Char, phred c = (c.toNat : Int) - 33) ∧
    phred '!' = 0 ∧ phred 'I' = 40 ∧ phred ' ' = -1 :=
  ⟨rfl, fun _ => rfl, by decide, by decide, by decide⟩

/-- C4.  `total_length` equals the sum of the recorded per-record lengths in
the fresh state, after every single `ingest` step, and after any parse run;
and whenever the basic-stats view reports data, the reported mean length is
exactly `total_length / sequences_count`. -/
theorem claim_C4 :
    initState.total_length = initState.sequence_lengths.sum ∧
    (∀ (st : FASTQProcessor) (s q : List Char),
      st.total_length = st.sequence_lengths.sum →
      (ingest st s q).total_length = (ingest st s q).sequence_lengths.sum) ∧
    (∀ (st : FASTQProcessor) (path content : List Char),
      (parse_fastq st path content).total_length =
        (parse_fastq st path content).sequence_lengths.sum) ∧
    (∀ (st : FASTQProcessor) (b : BasicStats),
      get_basic_stats st = some (View.data b) →
      b.avg_length = (st.total_length : ℚ) / (st.sequences_count : ℚ)) := by
  refine ⟨rfl, ?_, ?_, ?_⟩
  · intro st s q h
    simp [List.sum_append, h]
  · intro st path content
    rw [parse_fastq_eq]
    exact parse_blocks_total_eq_sum (readlines content) initState rfl
  · intro st b h
    unfold get_basic_stats at h
    split at h
    · simp at h
    · split at h
      · simp only [Option.some.injEq, View.data.injEq] at h
        rw [← h]
      · simp at h

/-- Witness for C4: the sum invariant is preserved by a concrete ingest step
from the fresh state. -/
theorem claim_C4_witness :
    initState.total_length = initState.sequence_lengths.sum ∧
    (ingest initState ['A', 'C'] ['I', 'I']).total_length =
      (ingest initState ['A', 'C'] ['I', 'I']).sequence_lengths.sum :=
  ⟨rfl, claim_C4.2.1 initState ['A', 'C'] ['I', 'I'] rfl⟩

/-- C6.  On the freshly constructed accumulator, and after parsing an empty
(0-byte) file, each of the three summary views returns the explicit "no data"
result — no exception is raised and no division by zero occurs (the views are
total functions and the `ValueError` case `none` does not arise). -/
theorem claim_C6 :
    get_basic_stats initState = some View.noData ∧
    get_quality_stats initState = some View.noData ∧
    (get_base_composition initState).1 = View.noData ∧
    (∀ (st : FASTQProcessor) (path : List Char),
      parse_fastq st path [] = initState ∧
      get_basic_stats (parse_fastq st path []) = some View.noData ∧
      get_quality_stats (parse_fastq st path []) = some View.noData ∧
      (get_base_composition (parse_fastq st path [])).1 = View.noData) := by
  refine ⟨rfl, rfl, rfl, ?_⟩
  intro st path
  have h : parse_fastq st path [] = initState := by
    unfold parse_fastq
    split <;> rfl
  exact ⟨h, by rw [h]; rfl, by rw [h]; rfl, by rw [h]; rfl⟩

/-- C7.  The parse resets all accumulator state at its start: its result never
depends on the prior state, so parsing the same file twice in succession
yields the same state and identical summary outputs both times, with no
mixing of statistics from a prior run. -/
theorem claim_C7 (st st2 : FASTQProcessor) (path content : List Char) :
    resetState st = initState ∧
    parse_fastq st path content = parse_fastq st2 path content ∧
    parse_fastq (parse_fastq st path content) path content =
      parse_fastq st path content ∧
    get_basic_stats (parse_fastq (parse_fastq st path content) path content) =
      get_basic_stats (parse_fastq st path content) ∧
    get_quality_stats (parse_fastq (parse_fastq st path content) path content) =
      get_quality_stats (parse_fastq st path content) ∧
    (get_base_composition
        (parse_fastq (parse_fastq st path content) path content)).1 =
      (get_base_composition (parse_fastq st path content)).1 := by
  have key : ∀ s1 s2 : FASTQProcessor,
      parse_fastq s1 path content = parse_fastq s2 path content := by
    intro s1 s2
    unfold parse_fastq
    split <;> rfl
  refine ⟨rfl, key st st2, key _ st, ?_, ?_, ?_⟩
  · rw [key (parse_fastq st path content) st]
  · rw [key (parse_fastq st path content) st]
  · rw [key (parse_fastq st path content) st]

/-- C8.  Parsing a gzip-compressed file (path ending in `.gz`) whose
decompressed decoded content equals the decoded content of a plain-text file
produces a state — and hence statistics — identical to parsing the
uncompressed file: after decompression the two read paths are equivalent. -/
theorem claim_C8 (st1 st2 : FASTQProcessor) (pgz pplain content : List Char)
    (h1 : pyEndswith pgz ['.', 'g', 'z'] = true)
    (h2 : pyEndswith pplain ['.', 'g', 'z'] = false) :
    parse_fastq st1 pgz content = parse_fastq st2 pplain content ∧
    get_basic_stats (parse_fastq st1 pgz content) =
      get_basic_stats (parse_fastq st2 pplain content) ∧
    get_quality_stats (parse_fastq st1 pgz content) =
      get_quality_stats (parse_fastq st2 pplain content) ∧
    (get_base_composition (parse_fastq st1 pgz content)).1 =
      (get_base_composition (parse_fastq st2 pplain content)).1 := by
  have h : parse_fastq st1 pgz content = parse_fastq st2 pplain content := by
    unfold parse_fastq
    rw [if_pos h1, if_neg (by simp [h2])]
    rfl
  exact ⟨h, by rw [h], by rw [h], by rw [h]⟩

/-- Witness for C8 at concrete paths `a.gz` and `a.fq` with the same decoded
content. -/
theorem claim_C8_witness :
    pyEndswith ['a', '.', 'g', 'z'] ['.', 'g', 'z'] = true ∧
    pyEndswith ['a', '.', 'f', 'q'] ['.', 'g', 'z'] = false ∧
    parse_fastq initState ['a', '.', 'g', 'z'] ("@r\nAC\n+\n!!\n").toList =
      parse_fastq initState ['a', '.', 'f', 'q'] ("@r\nAC\n+\n!!\n").toList :=
  ⟨by decide, by decide,
    (claim_C8 initState initState ['a', '.', 'g', 'z'] ['a', '.', 'f', 'q']
      ("@r\nAC\n+\n!!\n").toList (by decide) (by decide)).1⟩

/-- C10.  After every parse run the record count equals the number of recorded
per-record lengths, so on a populated accumulator (`sequences_count > 0`) the
list of lengths is non-empty and the basic-stats view actually returns data —
the `min`/`max` calls are well-defined and never raise. -/
theorem claim_C10 (st : FASTQProcessor) (path content : List Char) :
    (parse_fastq st path content).sequences_count =
      (parse_fastq st path content).sequence_lengths.length ∧
    (0 < (parse_fastq st path content).sequences_count →
      ∃ b : BasicStats,
        get_basic_stats (parse_fastq st path content) = some (View.data b)) := by
  have hlen : (parse_fastq st path content).sequences_count =
      (parse_fastq st path content).sequence_lengths.length := by
    rw [parse_fastq_eq]
    exact parse_blocks_count_eq_len (readlines content) initState rfl
  refine ⟨hlen, ?_⟩
  intro hpos
  have hne0 : ¬ (parse_fastq st path content).sequences_count = 0 := by omega
  have hlist : 0 < (parse_fastq st path content).sequence_lengths.length := by
    omega
  obtain ⟨x, xs, hxx⟩ : ∃ x xs,
      (parse_fastq st path content).sequence_lengths = x :: xs := by
    rcases hl : (parse_fastq st path content).sequence_lengths with _ | ⟨x, xs⟩
    · rw [hl] at hlist
      simp at hlist
    · exact ⟨x, xs, rfl⟩
  have hb : get_basic_stats (parse_fastq st path content) =
      some (View.data
        { count := (parse_fastq st path content).sequences_count
          avg_length := ((parse_fastq st path content).total_length : ℚ) /
            ((parse_fastq st path content).sequences_count : ℚ)
          min_length := xs.foldl Min.min x
          max_length := xs.foldl Max.max x
          total_length := (parse_fastq st path content).total_length }) := by
    simp only [get_basic_stats, hxx, pyMin, pyMax]
    rw [if_neg hne0]
  exact ⟨_, hb⟩

/-- Witness for C10 at a concrete two-record file. -/
theorem claim_C10_witness :
    0 < (parse_fastq initState ['f']
      ("@a\nACGT\n+\n!!!!\n@b\nACGTN\n+\nIIIII\n").toList).sequences_count ∧
    ∃ b : BasicStats,
      get_basic_stats (parse_fastq initState ['f']
        ("@a\nACGT\n+\n!!!!\n@b\nACGTN\n+\nIIIII\n").toList) =
          some (View.data b) :=
  ⟨by decide,
    (claim_C10 initState ['f']
      ("@a\nACGT\n+\n!!!!\n@b\nACGTN\n+\nIIIII\n").toList).2 (by decide)⟩

theorem comp_of_nil (st : FASTQProcessor) (hnil : st.base_counts = []) :
    get_base_composition st = (View.noData, st) := by
  unfold get_base_composition
  rw [if_pos hnil]

theorem comp_fst_of_ne (st : FASTQProcessor) (hne : st.base_counts ≠ []) :
    (get_base_composition st).1 =
      View.data ((compLoop (tallySum st.base_counts) ([], st.base_counts)
        ['A', 'T', 'G', 'C']).1) := by
  unfold get_base_composition
  rw [if_neg hne]

theorem comp_snd_of_ne (st : FASTQProcessor) (hne : st.base_counts ≠ []) :
    (get_base_composition st).2 =
      { st with base_counts := (compLoop (tallySum st.base_counts)
          ([], st.base_counts) ['A', 'T', 'G', 'C']).2 } := by
  unfold get_base_composition
  rw [if_neg hne]

/-- C5.  The base tally of any parse result has pairwise-distinct canonical
keys, and on any state with such a tally that is non-empty the
base-composition view reports all four canonical bases in the fixed order
A, T, G, C (zero-count bases included), each with percentage
`count / S * 100` where `S` is the sum of the four tallied counts (and 0 when
`S = 0`), and when `S > 0` the four percentages sum exactly to 100. -/
theorem claim_C5 :
    (∀ (st : FASTQProcessor) (path content : List Char),
      goodKeys (parse_fastq st path content).base_counts ∧
      nodupKeys (parse_fastq st path content).base_counts) ∧
    (∀ (st : FASTQProcessor) (S : Nat),
      goodKeys st.base_counts → nodupKeys st.base_counts →
      st.base_counts ≠ [] →
      S = ddVal st.base_counts 'A' + ddVal st.base_counts 'T' +
          ddVal st.base_counts 'G' + ddVal st.base_counts 'C' →
      (get_base_composition st).1 = View.data
        [compEntry S (ddVal st.base_counts 'A') 'A',
         compEntry S (ddVal st.base_counts 'T') 'T',
         compEntry S (ddVal st.base_counts 'G') 'G',
         compEntry S (ddVal st.base_counts 'C') 'C'] ∧
      (0 < S →
        pctOf S (ddVal st.base_counts 'A') + pctOf S (ddVal st.base_counts 'T') +
          pctOf S (ddVal st.base_counts 'G') +
          pctOf S (ddVal st.base_counts 'C') = 100) ∧
      (S = 0 →
        pctOf S (ddVal st.base_counts 'A') = 0 ∧
        pctOf S (ddVal st.base_counts 'T') = 0 ∧
        pctOf S (ddVal st.base_counts 'G') = 0 ∧
        pctOf S (ddVal st.base_counts 'C') = 0)) := by
  constructor
  · intro st path content
    rw [parse_fastq_eq]
    constructor
    · exact parse_blocks_goodKeys (readlines content) initState
        (fun p hp => absurd hp (List.not_mem_nil p))
    · exact parse_blocks_nodupKeys (readlines content) initState List.nodup_nil
  · intro st S hg hn hne hS
    have hSsum : tallySum st.base_counts = S := by
      rw [tallySum_eq_four st.base_counts hg hn, hS]
    refine ⟨?_, ?_, ?_⟩
    · rw [comp_fst_of_ne st hne, compLoop_fst, hSsum]
      simp [compEntry]
    · intro hpos
      have hSne : (S : ℚ) ≠ 0 := Nat.cast_ne_zero.mpr (by omega)
      unfold pctOf
      rw [if_pos hpos, if_pos hpos, if_pos hpos, if_pos hpos]
      have hcomb :
          (ddVal st.base_counts 'A' : ℚ) / (S : ℚ) * 100 +
            (ddVal st.base_counts 'T' : ℚ) / (S : ℚ) * 100 +
            (ddVal st.base_counts 'G' : ℚ) / (S : ℚ) * 100 +
            (ddVal st.base_counts 'C' : ℚ) / (S : ℚ) * 100 =
          ((ddVal st.base_counts 'A' : ℚ) + (ddVal st.base_counts 'T' : ℚ) +
            (ddVal st.base_counts 'G' : ℚ) + (ddVal st.base_counts 'C' : ℚ)) /
            (S : ℚ) * 100 := by
        ring
      have hcast :
          (ddVal st.base_counts 'A' : ℚ) + (ddVal st.base_counts 'T' : ℚ) +
            (ddVal st.base_counts 'G' : ℚ) + (ddVal st.base_counts 'C' : ℚ) =
          (S : ℚ) := by
        rw [hS]
        push_cast
        ring
      rw [hcomb, hcast, div_self hSne, one_mul]
    · intro h0
      subst h0
      simp [pctOf]

/-- Auxiliary concrete state for the C5 witness: the parse of a one-record
file with sequence `AT`, whose tally holds A and T once each. -/
def wit5state : FASTQProcessor :=
  parse_fastq initState ['f'] ("@a\nAT\n+\n!!\n").toList

/-- Witness for C5 at `wit5state`, with `S = 2`. -/
theorem claim_C5_witness :
    goodKeys wit5state.base_counts ∧
    nodupKeys wit5state.base_counts ∧
    wit5state.base_counts ≠ [] ∧
    2 = ddVal wit5state.base_counts 'A' + ddVal wit5state.base_counts 'T' +
        ddVal wit5state.base_counts 'G' + ddVal wit5state.base_counts 'C' ∧
    ((get_base_composition wit5state).1 = View.data
        [compEntry 2 (ddVal wit5state.base_counts 'A') 'A',
         compEntry 2 (ddVal wit5state.base_counts 'T') 'T',
         compEntry 2 (ddVal wit5state.base_counts 'G') 'G',
         compEntry 2 (ddVal wit5state.base_counts 'C') 'C'] ∧
      (0 < 2 →
        pctOf 2 (ddVal wit5state.base_counts 'A') +
          pctOf 2 (ddVal wit5state.base_counts 'T') +
          pctOf 2 (ddVal wit5state.base_counts 'G') +
          pctOf 2 (ddVal wit5state.base_counts 'C') = 100) ∧
      (2 = 0 →
        pctOf 2 (ddVal wit5state.base_counts 'A') = 0 ∧
        pctOf 2 (ddVal wit5state.base_counts 'T') = 0 ∧
        pctOf 2 (ddVal wit5state.base_counts 'G') = 0 ∧
        pctOf 2 (ddVal wit5state.base_counts 'C') = 0)) :=
  ⟨by decide, by decide, by decide, by decide,
    claim_C5.2 wit5state 2 (by decide) (by decide) (by decide) (by decide)⟩

/-- Counterexample to C9 as stated: on the parse result of a one-record file
with sequence `A`, calling the base-composition view does not leave the
accumulator state unchanged — the `defaultdict` read inserts the missing
canonical keys T, G, C with count 0 into `base_counts`. -/
theorem claim_C9_counterexample :
    (get_base_composition
        (parse_fastq initState ['f'] ("@r\nA\n+\n!\n").toList)).2 ≠
      parse_fastq initState ['f'] ("@r\nA\n+\n!\n").toList := by
  decide

/-- C9 amended.  The basic-stats and quality-stats views are pure functions of
the state (they are modelled without a state result because the source never
assigns to `self` in them), and the base-composition view preserves
`sequences_count`, `total_length`, `sequence_lengths`, `quality_scores`, and
the value of every tally counter (absent keys reading as 0) — it can only
insert missing canonical-base keys with count 0.  Consequently no view output
ever changes: the two other views and a repeated base-composition call return
the same results on the post-call state. -/
theorem claim_C9_amended (st : FASTQProcessor) :
    (get_base_composition st).2.sequences_count = st.sequences_count ∧
    (get_base_composition st).2.total_length = st.total_length ∧
    (get_base_composition st).2.sequence_lengths = st.sequence_lengths ∧
    (get_base_composition st).2.quality_scores = st.quality_scores ∧
    (∀ c : Char,
      ddVal (get_base_composition st).2.base_counts c = ddVal st.base_counts c) ∧
    get_basic_stats (get_base_composition st).2 = get_basic_stats st ∧
    get_quality_stats (get_base_composition st).2 = get_quality_stats st ∧
    (get_base_composition (get_base_composition st).2).1 =
      (get_base_composition st).1 := by
  by_cases hne : st.base_counts = []
  · rw [comp_of_nil st hne]
    refine ⟨rfl, rfl, rfl, rfl, fun _ => rfl, rfl, rfl, ?_⟩
    show (get_base_composition st).1 = View.noData
    rw [comp_of_nil st hne]
  · have h2 := comp_snd_of_ne st hne
    have hval : ∀ c : Char,
        ddVal (get_base_composition st).2.base_counts c = ddVal st.base_counts c := by
      intro c
      rw [h2]
      exact compLoop_snd_ddVal ['A', 'T', 'G', 'C'] (tallySum st.base_counts)
        ([], st.base_counts) c
    have hsum : tallySum (get_base_composition st).2.base_counts =
        tallySum st.base_counts := by
      rw [h2]
      exact compLoop_snd_sum ['A', 'T', 'G', 'C'] (tallySum st.base_counts)
        ([], st.base_counts)
    have hne2 : (get_base_composition st).2.base_counts ≠ [] := by
      rw [h2]
      exact compLoop_snd_ne_nil ['A', 'T', 'G', 'C'] (tallySum st.base_counts)
        ([], st.base_counts) hne
    refine ⟨by rw [h2], by rw [h2], by rw [h2], by rw [h2], hval, ?_, ?_, ?_⟩
    · rw [h2]
      rfl
    · rw [h2]
      rfl
    · rw [comp_fst_of_ne _ hne2, comp_fst_of_ne st hne, compLoop_fst,
        compLoop_fst, hsum]
      have hfun : (fun b => compEntry (tallySum st.base_counts)
          (ddVal (get_base_composition st).2.base_counts b) b) =
          fun b => compEntry (tallySum st.base_counts) (ddVal st.base_counts b) b :=
        funext fun b => by rw [hval b]
      rw [hfun]
